import Mathlib

/-!
Verification of the HighSpeed reactor core (IOContext / Epoll / Socket /
Awaitable) against its natural-language specification.

The development is a shallow embedding of the C++ sources:

* `src/include/net/IOContext.hpp` — the reactor: `FdAwaiter::await_suspend`,
  `run()`'s dispatch loop, `remove_fd`, `get_events`, `co_spawn`.
* `src/include/net/Epoll.hpp` — the poller wrapper; `epoll_ctl` kernel
  semantics (ADD fails when the fd is present, MOD/DEL fail when absent)
  are modelled by an explicit registration map, and a throwing call is an
  `Except`-style error.
* the Socket adapter — constructor registration, `close`, and the
  `async_read` EAGAIN retry loop, driven by a trace of `readFd` outcomes.

Coroutine handles and pointers are modelled as `Nat`, with `0` standing for
the null handle / null pointer.  The `std::unordered_map<int, Waiter>`
WaiterTable is modelled as an association list with map semantics (insert
overwrites, erase removes the key).  A closure submitted to the ThreadPool
by `executor_->addTask([h]{ h.resume(); })` is modelled by appending the
resumed handle to a FIFO `submissions` list: resuming on a worker thread is
exactly an enqueue of the handle into the pool.
-/

namespace HighSpeed

/-- Linux readiness bit for read interest, as used by the source
(`EPOLLIN` from `sys/epoll.h`). -/
def EPOLLIN : Nat := 1

/-- Linux readiness bit for write interest (`EPOLLOUT`). -/
def EPOLLOUT : Nat := 4

/-- IOContext::Waiter: a stored coroutine handle plus the requested
interest mask.  Default member initializers give handle `nullptr` (here
`0`) and events `0`. -/
structure Waiter where
  handle : Nat
  events : Nat
  deriving Repr, DecidableEq

/-- Value-initialized Waiter, as produced by `unordered_map::operator[]`
on a missing key: `{nullptr, 0}`. -/
def Waiter.def : Waiter := ⟨0, 0⟩

/-- Lookup in an association list keyed by fd (models `find` on
`std::unordered_map`). -/
def lookupFd {β : Type} : List (Int × β) → Int → Option β
  | [], _ => none
  | (k, v) :: rest, fd => if k = fd then some v else lookupFd rest fd

/-- Insert-or-overwrite in an association list keyed by fd (models
`operator[]` assignment on `std::unordered_map`: a present key is
overwritten, an absent key is created). -/
def insertFd {β : Type} : List (Int × β) → Int → β → List (Int × β)
  | [], fd, v => [(fd, v)]
  | (k, v0) :: rest, fd, v =>
      if k = fd then (fd, v) :: rest else (k, v0) :: insertFd rest fd v

/-- Erase by key (models `erase` on `std::unordered_map`, whose keys are
unique). -/
def eraseFd {β : Type} (tbl : List (Int × β)) (fd : Int) : List (Int × β) :=
  tbl.filter (fun e => !(e.1 = fd : Bool))

/-- Epoll (src/include/net/Epoll.hpp): the kernel-side registration map
from fd to interest mask, owned by the epoll instance. -/
structure Epoll where
  registered : List (Int × Nat)
  deriving Repr, DecidableEq

/-- Epoll::add — `epoll_ctl(EPOLL_CTL_ADD)`: throws (error) when the fd is
already registered, otherwise records the interest mask. -/
def Epoll.add (e : Epoll) (fd : Int) (events : Nat) : Except Unit Epoll :=
  match lookupFd e.registered fd with
  | some _ => .error ()
  | none => .ok ⟨insertFd e.registered fd events⟩

/-- Epoll::modify — `epoll_ctl(EPOLL_CTL_MOD)`: throws (error) when the fd
is not registered, otherwise replaces the interest mask. -/
def Epoll.modify (e : Epoll) (fd : Int) (events : Nat) : Except Unit Epoll :=
  match lookupFd e.registered fd with
  | none => .error ()
  | some _ => .ok ⟨insertFd e.registered fd events⟩

/-- Epoll::remove — `epoll_ctl(EPOLL_CTL_DEL)`: throws (error) when the fd
is not registered, otherwise deregisters it. -/
def Epoll.remove (e : Epoll) (fd : Int) : Except Unit Epoll :=
  match lookupFd e.registered fd with
  | none => .error ()
  | some _ => .ok ⟨eraseFd e.registered fd⟩

/-- Reactor state of one IOContext: the WaiterTable `waiters_`, the owned
poller `ev_`, the executor pointer `executor_`, and the FIFO of resume
closures handed to `executor_->addTask` (each recorded by the handle the
closure resumes). -/
structure IOContext where
  executor : Nat
  waiters : List (Int × Waiter)
  ev : Epoll
  submissions : List Nat
  deriving Repr, DecidableEq

/-- A fresh IOContext: empty WaiterTable, a poller with no registrations,
nothing yet submitted to the pool. -/
def IOContext.init (executor : Nat) : IOContext :=
  ⟨executor, [], ⟨[]⟩, []⟩

/-- FdAwaiter (IOContext.hpp lines 43-67): the value returned by
`await_fd`, carrying the fd and the requested interest mask. -/
structure FdAwaiter where
  fd : Int
  events : Nat
  deriving Repr, DecidableEq

/-- IOContext::await_fd — returns `FdAwaiter{this, fd, events}`. -/
def IOContext.await_fd (_s : IOContext) (fd : Int) (events : Nat) : FdAwaiter :=
  ⟨fd, events⟩

/-- FdAwaiter::await_ready — the source returns `false` unconditionally. -/
def FdAwaiter.await_ready (_a : FdAwaiter) : Bool := false

/-- FdAwaiter::await_suspend (IOContext.hpp lines 51-64), with awaiting
handle `h`: store `Waiter{h, events}` into the table (overwriting any
prior entry for fd), then call `ev_->modify(fd, events)`; if modify
throws, the exception is swallowed (`await_suspend` is noexcept with a
catch-all) and the just-stored Waiter is erased.  The function always
returns normally, which is why its result type is `IOContext` and not an
`Except`. -/
def IOContext.await_suspend (s : IOContext) (fd : Int) (h : Nat) (events : Nat) :
    IOContext :=
  let s1 : IOContext := { s with waiters := insertFd s.waiters fd ⟨h, events⟩ }
  match s1.ev.modify fd events with
  | .ok e2 => { s1 with ev := e2 }
  | .error _ => { s1 with waiters := eraseFd s1.waiters fd }

/-- One iteration of the dispatch loop in IOContext::run (IOContext.hpp
lines 109-135) for a ready event `(fd, ev)`: under the mutex, look the fd
up in the WaiterTable; if absent, continue (no state change); otherwise
erase the entry and submit `[h]{ h.resume(); }` to the pool.  The reported
event mask `ev` is bound but never consulted, exactly as in the source. -/
def IOContext.dispatchEvent (s : IOContext) (fd : Int) (_ev : Nat) : IOContext :=
  match lookupFd s.waiters fd with
  | none => s
  | some w =>
      { s with waiters := eraseFd s.waiters fd,
               submissions := s.submissions ++ [w.handle] }

/-- The full body of the for-loop in IOContext::run over the batch of
events one `wait` returned, in order. -/
def IOContext.runEvents (s : IOContext) : List (Int × Nat) → IOContext
  | [] => s
  | (fd, ev) :: rest => (s.dispatchEvent fd ev).runEvents rest

/-- IOContext::remove_fd (IOContext.hpp lines 151-159): under the mutex,
erase the WaiterTable entry, then call `ev_->remove(fd)`.  The Boolean
records whether the poller call threw; on a throw the exception
propagates out of remove_fd, but the table erase has already happened. -/
def IOContext.remove_fd (s : IOContext) (fd : Int) : IOContext × Bool :=
  let s1 : IOContext := { s with waiters := eraseFd s.waiters fd }
  match s1.ev.remove fd with
  | .ok e2 => ({ s1 with ev := e2 }, false)
  | .error _ => (s1, true)

/-- IOContext::add_fd — forwards to Epoll::add; a throw propagates. -/
def IOContext.add_fd (s : IOContext) (fd : Int) (events : Nat) :
    Except Unit IOContext :=
  match s.ev.add fd events with
  | .ok e2 => .ok { s with ev := e2 }
  | .error u => .error u

/-- IOContext::modify_fd — forwards to Epoll::modify; a throw propagates. -/
def IOContext.modify_fd (s : IOContext) (fd : Int) (events : Nat) :
    Except Unit IOContext :=
  match s.ev.modify fd events with
  | .ok e2 => .ok { s with ev := e2 }
  | .error u => .error u

/-- IOContext::get_events (IOContext.hpp lines 166-170): under the mutex,
`return waiters_[fd].events;`.  `operator[]` on `std::unordered_map`
value-initializes and inserts a `Waiter{nullptr, 0}` when the key is
absent, so the call returns the pending waiter's mask when one exists and
otherwise returns 0 while inserting a default entry. -/
def IOContext.get_events (s : IOContext) (fd : Int) : Nat × IOContext :=
  match lookupFd s.waiters fd with
  | some w => (w.events, s)
  | none => (0, { s with waiters := insertFd s.waiters fd Waiter.def })

/-- Promise of an Awaitable coroutine frame (coro/Awaitable.hpp): the
executor pointer (ThreadPool*, `0` = null) and the caller handle
`awaiting` (`0` = null), both default-initialized to null. -/
structure Promise where
  executor : Nat
  awaiting : Nat
  deriving Repr, DecidableEq

/-- An Awaitable value: unique owner of a coroutine handle (`0` = null
handle), with the frame's promise carried alongside for the states the
claims observe. -/
structure AwaitableH where
  handle : Nat
  promise : Promise
  deriving Repr, DecidableEq

/-- IOContext::co_spawn (IOContext.hpp lines 74-93).  When the argument's
handle is null it throws `std::invalid_argument` before touching anything
(the Boolean result is `true` and state and argument are returned
unchanged).  Otherwise it writes `executor_` into the top-level promise,
takes the handle out of the argument with `std::exchange` (leaving the
argument's handle null), and submits the one-shot closure
`[h]{ h.resume(); }` to the pool.  The closure ignores the frame's result
slot: the top-level result is discarded. -/
def IOContext.co_spawn (s : IOContext) (a : AwaitableH) :
    IOContext × AwaitableH × Bool :=
  if a.handle = 0 then (s, a, true)
  else
    let a1 : AwaitableH := { a with promise := { a.promise with executor := s.executor } }
    let h := a1.handle
    let a2 : AwaitableH := { a1 with handle := 0 }
    ({ s with submissions := s.submissions ++ [h] }, a2, false)

/-- Result of a coroutine suspension policy, standing for the C++ types
`std::suspend_always` and `std::suspend_never`. -/
inductive SuspendKind where
  | always
  | never
  deriving Repr, DecidableEq

/-- Awaitable promise_type::initial_suspend (Awaitable.hpp line 28 and
line 119): returns `std::suspend_always{}` for every promise. -/
def Promise.initial_suspend (_p : Promise) : SuspendKind := .always

/-- Awaitable<T>::await_ready (Awaitable.hpp lines 83 and 173): the
source returns `false` unconditionally. -/
def AwaitableH.await_ready (_a : AwaitableH) : Bool := false

/-- Socket::Socket(int fd, IOContext* ctx) (the IOContext-based adapter):
when `fd >= 0` the body runs `ctx_->add_fd(sockfd_, EPOLLIN)`; an Epoll
throw propagates out of the constructor. -/
def socketInit (s : IOContext) (fd : Int) : Except Unit IOContext :=
  if 0 ≤ fd then s.add_fd fd EPOLLIN else .ok s

/-- Socket::close, the body run by ~Socket when the socket still owns a
valid fd and a non-null ctx: `ctx_->remove_fd(sockfd_)` followed by
`::close(sockfd_)` (the kernel close has no reactor-visible effect). -/
def socketClose (s : IOContext) (fd : Int) : IOContext × Bool :=
  if 0 ≤ fd then s.remove_fd fd else (s, false)

/-- Outcome of one Buffer::readFd call on the socket's fd: a return of
`n >= 0` bytes, a `-1` with `*savedErrno` EAGAIN/EWOULDBLOCK, or a `-1`
with any other errno. -/
inductive ReadOutcome where
  | ok (n : Nat)
  | eagain
  | fail (e : Nat)
  deriving Repr, DecidableEq

/-- Socket::async_read (the IOContext-based adapter), driven by a trace of
`readFd` outcomes; `h` is the coroutine handle of the read coroutine.
Each loop iteration consumes one outcome:

* `ok n` — the read succeeded; `co_return n`.
* `fail e` — a `std::system_error` is thrown (the `.error e` result).
* `eagain` — the coroutine computes
  `modify_events = ctx_->get_events(sockfd_) | EPOLLIN`, then
  `co_await ctx_->await_fd(sockfd_, modify_events)`; the suspension runs
  `await_suspend`.  When the Waiter survived (epoll modify succeeded) the
  reactor later dispatches readiness for the fd — erasing the entry and
  submitting the resume closure — and the resumed coroutine retries the
  loop.  When epoll modify failed the Waiter was erased and the coroutine
  is never resumed: the loop produces no result (`none`).

The returned tuple is (result if the coroutine ever finishes, final
reactor state, the list of `(fd, mask)` suspensions performed via
`await_fd`, the number of resumptions performed by the pool). -/
def asyncRead (fd : Int) (h : Nat) :
    List ReadOutcome → IOContext →
    Option (Except Nat Nat) × IOContext × List (Int × Nat) × Nat
  | [], s => (none, s, [], 0)
  | .ok n :: _, s => (some (.ok n), s, [], 0)
  | .fail e :: _, s => (some (.error e), s, [], 0)
  | .eagain :: rest, s =>
      let p := s.get_events fd
      let m := p.1 ||| EPOLLIN
      let s2 := p.2.await_suspend fd h m
      match lookupFd s2.waiters fd with
      | none => (none, s2, [(fd, m)], 0)
      | some _ =>
          let s3 := s2.dispatchEvent fd EPOLLIN
          match asyncRead fd h rest s3 with
          | (r, s4, sus, res) => (r, s4, (fd, m) :: sus, res + 1)

/-- One reactor operation that touches the IOContext state, used to form
traces of reachable states. -/
inductive Op where
  | await (fd : Int) (h : Nat) (events : Nat)
  | dispatch (fd : Int) (events : Nat)
  | remove (fd : Int)
  | getEv (fd : Int)
  | addF (fd : Int) (events : Nat)
  | modF (fd : Int) (events : Nat)
  deriving Repr, DecidableEq

/-- Apply one operation to the reactor state.  For the fallible
forwarding calls (`add_fd`, `modify_fd`) a throw leaves the reactor state
unchanged, which is exactly what the C++ state is after the exception
propagates. -/
def applyOp (s : IOContext) : Op → IOContext
  | .await fd h ev => s.await_suspend fd h ev
  | .dispatch fd ev => s.dispatchEvent fd ev
  | .remove fd => (s.remove_fd fd).1
  | .getEv fd => (s.get_events fd).2
  | .addF fd ev =>
      match s.add_fd fd ev with
      | .ok s2 => s2
      | .error _ => s
  | .modF fd ev =>
      match s.modify_fd fd ev with
      | .ok s2 => s2
      | .error _ => s

/-- Run a trace of operations, left to right. -/
def runOps (s : IOContext) : List Op → IOContext
  | [] => s
  | op :: rest => runOps (applyOp s op) rest

/-- A reactor state is reachable when some operation trace leads to it
from a fresh IOContext. -/
def Reachable (s : IOContext) : Prop :=
  ∃ (executor : Nat) (ops : List Op), s = runOps (IOContext.init executor) ops

/-- Kind of one syntactic access to the `waiters_` map in IOContext.hpp. -/
inductive AccessKind where
  | insertW
  | eraseW
  | findW
  | indexW
  deriving Repr, DecidableEq

/-- One syntactic access to `waiters_`, annotated with whether a
`std::lock_guard` on `waitter_mtx_` is in scope at that statement in the
source. -/
structure TableAccess where
  kind : AccessKind
  underMutex : Bool
  deriving Repr, DecidableEq

/-- Accesses to `waiters_` in FdAwaiter::await_suspend (IOContext.hpp
lines 51-64): the store `ctx->waiters_[fd] = Waiter{...}` at line 53 and
the `ctx->waiters_.erase(fd)` in the catch block at line 62.  The
function body declares no lock_guard on `waitter_mtx_`. -/
def awaitSuspendAccesses : List TableAccess :=
  [⟨.insertW, false⟩, ⟨.eraseW, false⟩]

/-- Accesses to `waiters_` in the dispatch loop of IOContext::run
(IOContext.hpp lines 113-128): `waiters_.find(fd)` at line 117 and
`waiters_.erase(it)` at line 127, both in the scope of the
`std::lock_guard lock(waitter_mtx_)` declared at line 113. -/
def runDispatchAccesses : List TableAccess :=
  [⟨.findW, true⟩, ⟨.eraseW, true⟩]

/-- Access to `waiters_` in IOContext::remove_fd (IOContext.hpp lines
151-159): `waiters_.erase(fd)` at line 155, in the scope of the
`std::lock_guard lock(waitter_mtx_)` declared at line 153. -/
def removeFdAccesses : List TableAccess :=
  [⟨.eraseW, true⟩]

/-- Access to `waiters_` in IOContext::get_events (IOContext.hpp lines
166-170): `waiters_[fd]` at line 169, in the scope of the
`std::lock_guard lock(waitter_mtx_)` declared at line 168. -/
def getEventsAccesses : List TableAccess :=
  [⟨.indexW, true⟩]

/-! Association-list lemmas for the WaiterTable model. -/

theorem lookupFd_insertFd_self {β : Type} (tbl : List (Int × β)) (fd : Int) (v : β) :
    lookupFd (insertFd tbl fd v) fd = some v := by
  induction tbl with
  | nil => simp [insertFd, lookupFd]
  | cons e rest ih =>
      obtain ⟨k, v0⟩ := e
      by_cases hk : k = fd
      · subst hk; simp [insertFd, lookupFd]
      · simp [insertFd, lookupFd, hk, ih]

theorem lookupFd_insertFd_ne {β : Type} (tbl : List (Int × β)) (fd fd' : Int) (v : β)
    (hne : fd' ≠ fd) : lookupFd (insertFd tbl fd v) fd' = lookupFd tbl fd' := by
  have hfd : ¬ (fd = fd') := fun h => hne h.symm
  induction tbl with
  | nil => simp [insertFd, lookupFd, hfd]
  | cons e rest ih =>
      obtain ⟨k, v0⟩ := e
      by_cases hk : k = fd
      · subst hk
        simp [insertFd, lookupFd, hfd]
      · by_cases hk' : k = fd'
        · simp [insertFd, hk, lookupFd, hk', hne]
        · simp [insertFd, hk, lookupFd, hk', ih]

theorem lookupFd_eraseFd_self {β : Type} (tbl : List (Int × β)) (fd : Int) :
    lookupFd (eraseFd tbl fd) fd = none := by
  induction tbl with
  | nil => simp [eraseFd, lookupFd]
  | cons e rest ih =>
      obtain ⟨k, v0⟩ := e
      by_cases hk : k = fd
      · subst hk
        simpa [eraseFd, List.filter_cons] using ih
      · simpa [eraseFd, List.filter_cons, hk, lookupFd] using ih

theorem lookupFd_eraseFd_ne {β : Type} (tbl : List (Int × β)) (fd fd' : Int)
    (hne : fd' ≠ fd) : lookupFd (eraseFd tbl fd) fd' = lookupFd tbl fd' := by
  have hfd : ¬ (fd = fd') := fun h => hne h.symm
  induction tbl with
  | nil => simp [eraseFd, lookupFd]
  | cons e rest ih =>
      obtain ⟨k, v0⟩ := e
      by_cases hk : k = fd
      · subst hk
        simpa [eraseFd, List.filter_cons, lookupFd, hfd] using ih
      · by_cases hk' : k = fd'
        · simp [eraseFd, List.filter_cons, hk, lookupFd, hk', hne]
        · simpa [eraseFd, List.filter_cons, hk, lookupFd, hk'] using ih

theorem mem_insertFd {β : Type} (tbl : List (Int × β)) (fd : Int) (v : β)
    (e : Int × β) (he : e ∈ insertFd tbl fd v) : e = (fd, v) ∨ e ∈ tbl := by
  induction tbl with
  | nil =>
      simp only [insertFd, List.mem_singleton] at he
      exact Or.inl he
  | cons e0 rest ih =>
      obtain ⟨k, v0⟩ := e0
      by_cases hk : k = fd
      · subst hk
        rcases List.mem_cons.mp (by simpa [insertFd] using he) with h1 | h2
        · exact Or.inl h1
        · exact Or.inr (List.mem_cons_of_mem _ h2)
      · simp only [insertFd, if_neg hk] at he
        rcases List.mem_cons.mp he with h1 | h2
        · exact Or.inr (h1 ▸ List.mem_cons_self _ _)
        · rcases ih h2 with h3 | h4
          · exact Or.inl h3
          · exact Or.inr (List.mem_cons_of_mem _ h4)

theorem mem_eraseFd {β : Type} (tbl : List (Int × β)) (fd : Int)
    (e : Int × β) (he : e ∈ eraseFd tbl fd) : e ∈ tbl :=
  List.mem_of_mem_filter he

theorem lookupFd_mem {β : Type} (tbl : List (Int × β)) (fd : Int) (v : β)
    (h : lookupFd tbl fd = some v) : (fd, v) ∈ tbl := by
  induction tbl with
  | nil => simp [lookupFd] at h
  | cons e rest ih =>
      obtain ⟨k, v0⟩ := e
      by_cases hk : k = fd
      · subst hk
        have h' : v0 = v := by simpa [lookupFd] using h
        subst h'
        exact List.mem_cons_self _ _
      · simp only [lookupFd, if_neg hk] at h
        exact List.mem_cons_of_mem _ (ih h)

/-- Keys of the table, used to state uniqueness. -/
def keysOf {β : Type} (tbl : List (Int × β)) : List Int :=
  tbl.map Prod.fst

theorem mem_keysOf_insertFd {β : Type} (tbl : List (Int × β)) (fd k : Int) (v : β)
    (hk : k ∈ keysOf (insertFd tbl fd v)) : k ∈ keysOf tbl ∨ k = fd := by
  simp only [keysOf, List.mem_map] at hk ⊢
  obtain ⟨e, he, hke⟩ := hk
  rcases mem_insertFd tbl fd v e he with h1 | h2
  · right; rw [← hke, h1]
  · left; exact ⟨e, h2, hke⟩

theorem keysNodup_insertFd {β : Type} (tbl : List (Int × β)) (fd : Int) (v : β)
    (hnd : (keysOf tbl).Nodup) : (keysOf (insertFd tbl fd v)).Nodup := by
  induction tbl with
  | nil => simp [insertFd, keysOf]
  | cons e rest ih =>
      obtain ⟨k, v0⟩ := e
      simp only [keysOf, List.map_cons, List.nodup_cons] at hnd
      by_cases hk : k = fd
      · have heq : insertFd ((k, v0) :: rest) fd v = (fd, v) :: rest := by
          simp [insertFd, hk]
        rw [heq]
        simp only [keysOf, List.map_cons, List.nodup_cons]
        rw [hk] at hnd
        exact hnd
      · simp only [insertFd, if_neg hk, keysOf, List.map_cons, List.nodup_cons]
        refine ⟨?_, ih hnd.2⟩
        intro hmem
        rcases mem_keysOf_insertFd rest fd k v hmem with h1 | h2
        · exact hnd.1 h1
        · exact hk h2

theorem keysNodup_eraseFd {β : Type} (tbl : List (Int × β)) (fd : Int)
    (hnd : (keysOf tbl).Nodup) : (keysOf (eraseFd tbl fd)).Nodup := by
  have hsub : List.Sublist (keysOf (eraseFd tbl fd)) (keysOf tbl) :=
    (List.filter_sublist tbl).map Prod.fst
  exact hnd.sublist hsub

/-! Characterizations of the reactor operations. -/

theorem await_suspend_waiters_ok (s : IOContext) (fd : Int) (h ev : Nat)
    (hreg : Epoll.modify s.ev fd ev ≠ .error ()) :
    (s.await_suspend fd h ev).waiters = insertFd s.waiters fd ⟨h, ev⟩ := by
  unfold IOContext.await_suspend
  cases hmod : Epoll.modify s.ev fd ev with
  | ok e2 => simp [hmod]
  | error u => exact absurd (by rw [hmod]) hreg

theorem await_suspend_waiters_err (s : IOContext) (fd : Int) (h ev : Nat)
    (hfail : Epoll.modify s.ev fd ev = .error ()) :
    (s.await_suspend fd h ev).waiters = eraseFd (insertFd s.waiters fd ⟨h, ev⟩) fd := by
  unfold IOContext.await_suspend
  simp [hfail]

theorem await_suspend_submissions (s : IOContext) (fd : Int) (h ev : Nat) :
    (s.await_suspend fd h ev).submissions = s.submissions := by
  unfold IOContext.await_suspend
  cases hmod : Epoll.modify s.ev fd ev <;> simp [hmod]

theorem remove_fd_waiters (s : IOContext) (fd : Int) :
    ((s.remove_fd fd).1).waiters = eraseFd s.waiters fd := by
  unfold IOContext.remove_fd
  cases hrem : Epoll.remove s.ev fd <;> simp [hrem]

theorem remove_fd_submissions (s : IOContext) (fd : Int) :
    ((s.remove_fd fd).1).submissions = s.submissions := by
  unfold IOContext.remove_fd
  cases hrem : Epoll.remove s.ev fd <;> simp [hrem]

theorem dispatchEvent_of_none (s : IOContext) (fd : Int) (ev : Nat)
    (hnone : lookupFd s.waiters fd = none) : s.dispatchEvent fd ev = s := by
  unfold IOContext.dispatchEvent
  simp [hnone]

theorem dispatchEvent_of_some (s : IOContext) (fd : Int) (ev : Nat) (w : Waiter)
    (hw : lookupFd s.waiters fd = some w) :
    s.dispatchEvent fd ev =
      { s with waiters := eraseFd s.waiters fd,
               submissions := s.submissions ++ [w.handle] } := by
  unfold IOContext.dispatchEvent
  simp [hw]

theorem get_events_of_some (s : IOContext) (fd : Int) (w : Waiter)
    (hw : lookupFd s.waiters fd = some w) :
    s.get_events fd = (w.events, s) := by
  unfold IOContext.get_events
  simp [hw]

theorem get_events_of_none (s : IOContext) (fd : Int)
    (hnone : lookupFd s.waiters fd = none) :
    s.get_events fd = (0, { s with waiters := insertFd s.waiters fd Waiter.def }) := by
  unfold IOContext.get_events
  simp [hnone]

theorem add_fd_frame (s : IOContext) (fd : Int) (ev : Nat) (s2 : IOContext)
    (hok : s.add_fd fd ev = .ok s2) :
    s2.waiters = s.waiters ∧ s2.submissions = s.submissions := by
  unfold IOContext.add_fd at hok
  cases hadd : Epoll.add s.ev fd ev with
  | ok e2 =>
      rw [hadd] at hok
      cases hok
      exact ⟨rfl, rfl⟩
  | error u =>
      rw [hadd] at hok
      cases hok

theorem modify_fd_frame (s : IOContext) (fd : Int) (ev : Nat) (s2 : IOContext)
    (hok : s.modify_fd fd ev = .ok s2) :
    s2.waiters = s.waiters ∧ s2.submissions = s.submissions := by
  unfold IOContext.modify_fd at hok
  cases hmod : Epoll.modify s.ev fd ev with
  | ok e2 =>
      rw [hmod] at hok
      cases hok
      exact ⟨rfl, rfl⟩
  | error u =>
      rw [hmod] at hok
      cases hok

/-! Key uniqueness is preserved by every reactor operation. -/

theorem keysNodup_applyOp (s : IOContext) (op : Op)
    (hnd : (keysOf s.waiters).Nodup) : (keysOf (applyOp s op).waiters).Nodup := by
  cases op with
  | await fd h ev =>
      show (keysOf (s.await_suspend fd h ev).waiters).Nodup
      by_cases hmod : Epoll.modify s.ev fd ev = .error ()
      · rw [await_suspend_waiters_err s fd h ev hmod]
        exact keysNodup_eraseFd _ _ (keysNodup_insertFd _ _ _ hnd)
      · rw [await_suspend_waiters_ok s fd h ev hmod]
        exact keysNodup_insertFd _ _ _ hnd
  | dispatch fd ev =>
      show (keysOf (s.dispatchEvent fd ev).waiters).Nodup
      cases hlk : lookupFd s.waiters fd with
      | none => rw [dispatchEvent_of_none s fd ev hlk]; exact hnd
      | some w =>
          rw [dispatchEvent_of_some s fd ev w hlk]
          exact keysNodup_eraseFd _ _ hnd
  | remove fd =>
      show (keysOf ((s.remove_fd fd).1).waiters).Nodup
      rw [remove_fd_waiters]
      exact keysNodup_eraseFd _ _ hnd
  | getEv fd =>
      show (keysOf ((s.get_events fd).2).waiters).Nodup
      cases hlk : lookupFd s.waiters fd with
      | none =>
          rw [get_events_of_none s fd hlk]
          exact keysNodup_insertFd _ _ _ hnd
      | some w =>
          rw [get_events_of_some s fd w hlk]
          exact hnd
  | addF fd ev =>
      show (keysOf (match s.add_fd fd ev with | .ok s2 => s2 | .error _ => s).waiters).Nodup
      cases hadd : s.add_fd fd ev with
      | ok s2 => rw [(add_fd_frame s fd ev s2 hadd).1]; exact hnd
      | error u => exact hnd
  | modF fd ev =>
      show (keysOf (match s.modify_fd fd ev with | .ok s2 => s2 | .error _ => s).waiters).Nodup
      cases hmod : s.modify_fd fd ev with
      | ok s2 => rw [(modify_fd_frame s fd ev s2 hmod).1]; exact hnd
      | error u => exact hnd

theorem keysNodup_runOps (ops : List Op) :
    ∀ (s : IOContext), (keysOf s.waiters).Nodup →
      (keysOf (runOps s ops).waiters).Nodup := by
  induction ops with
  | nil => intro s hnd; exact hnd
  | cons op rest ih =>
      intro s hnd
      exact ih (applyOp s op) (keysNodup_applyOp s op hnd)

theorem reachable_keysNodup (s : IOContext) (hs : Reachable s) :
    (keysOf s.waiters).Nodup := by
  obtain ⟨ex, ops, rfl⟩ := hs
  exact keysNodup_runOps ops (IOContext.init ex) (by simp [IOContext.init, keysOf])

/-! Tracking of a single coroutine handle through a trace: once a handle is
out of the WaiterTable, and no later `await_fd` stores it again, no later
dispatch ever submits it to the pool. -/

/-- Handles currently stored in the WaiterTable. -/
def tableHandles (s : IOContext) : List Nat :=
  s.waiters.map (fun e => e.2.handle)

theorem handle_not_mem_insertFd (tbl : List (Int × Waiter)) (fd : Int) (v : Waiter)
    (h : Nat) (htbl : h ∉ tbl.map (fun e => e.2.handle)) (hv : v.handle ≠ h) :
    h ∉ (insertFd tbl fd v).map (fun e => e.2.handle) := by
  intro hmem
  simp only [List.mem_map] at hmem
  obtain ⟨e, he, hhe⟩ := hmem
  rcases mem_insertFd tbl fd v e he with h1 | h2
  · exact hv (by rw [h1] at hhe; exact hhe)
  · exact htbl (List.mem_map.mpr ⟨e, h2, hhe⟩)

theorem handle_not_mem_eraseFd (tbl : List (Int × Waiter)) (fd : Int)
    (h : Nat) (htbl : h ∉ tbl.map (fun e => e.2.handle)) :
    h ∉ (eraseFd tbl fd).map (fun e => e.2.handle) := by
  intro hmem
  simp only [List.mem_map] at hmem
  obtain ⟨e, he, hhe⟩ := hmem
  exact htbl (List.mem_map.mpr ⟨e, mem_eraseFd tbl fd e he, hhe⟩)

/-- One step preserves absence of a handle: if `h` is not in the table and
the operation is not an `await` that stores `h`, then after the operation
`h` is still not in the table and was not newly submitted to the pool. -/
theorem applyOp_handle_tracking (s : IOContext) (op : Op) (h : Nat) (h0 : h ≠ 0)
    (hop : ∀ fd2 ev2, op ≠ Op.await fd2 h ev2)
    (htbl : h ∉ tableHandles s) :
    h ∉ tableHandles (applyOp s op) ∧
      (h ∈ (applyOp s op).submissions → h ∈ s.submissions) := by
  cases op with
  | await fd h2 ev =>
      have hh2 : h2 ≠ h := by
        intro heq
        exact hop fd ev (by rw [heq])
      constructor
      · show h ∉ tableHandles (s.await_suspend fd h2 ev)
        unfold tableHandles
        by_cases hmod : Epoll.modify s.ev fd ev = .error ()
        · rw [await_suspend_waiters_err s fd h2 ev hmod]
          exact handle_not_mem_eraseFd _ _ _
            (handle_not_mem_insertFd _ _ _ _ htbl hh2)
        · rw [await_suspend_waiters_ok s fd h2 ev hmod]
          exact handle_not_mem_insertFd _ _ _ _ htbl hh2
      · show h ∈ (s.await_suspend fd h2 ev).submissions → _
        rw [await_suspend_submissions]
        exact id
  | dispatch fd ev =>
      cases hlk : lookupFd s.waiters fd with
      | none =>
          have heq : applyOp s (Op.dispatch fd ev) = s := dispatchEvent_of_none s fd ev hlk
          rw [heq]
          exact ⟨htbl, id⟩
      | some w =>
          have hwh : w.handle ≠ h := by
            intro heq
            exact htbl (List.mem_map.mpr ⟨(fd, w), lookupFd_mem _ _ _ hlk, heq⟩)
          have heq : applyOp s (Op.dispatch fd ev) =
              { s with waiters := eraseFd s.waiters fd,
                       submissions := s.submissions ++ [w.handle] } :=
            dispatchEvent_of_some s fd ev w hlk
          rw [heq]
          constructor
          · exact handle_not_mem_eraseFd _ _ _ htbl
          · intro hmem
            rcases List.mem_append.mp hmem with h1 | h2
            · exact h1
            · exact absurd (List.mem_singleton.mp h2).symm hwh
  | remove fd =>
      constructor
      · show h ∉ tableHandles ((s.remove_fd fd).1)
        unfold tableHandles
        rw [remove_fd_waiters]
        exact handle_not_mem_eraseFd _ _ _ htbl
      · show h ∈ ((s.remove_fd fd).1).submissions → _
        rw [remove_fd_submissions]
        exact id
  | getEv fd =>
      cases hlk : lookupFd s.waiters fd with
      | none =>
          have heq : applyOp s (Op.getEv fd) =
              { s with waiters := insertFd s.waiters fd Waiter.def } := by
            show (s.get_events fd).2 = _
            rw [get_events_of_none s fd hlk]
          rw [heq]
          constructor
          · exact handle_not_mem_insertFd _ _ _ _ htbl (fun hc => h0 hc.symm)
          · exact id
      | some w =>
          have heq : applyOp s (Op.getEv fd) = s := by
            show (s.get_events fd).2 = _
            rw [get_events_of_some s fd w hlk]
          rw [heq]
          exact ⟨htbl, id⟩
  | addF fd ev =>
      simp only [applyOp]
      cases hadd : s.add_fd fd ev with
      | ok s2 =>
          obtain ⟨hw, hsub⟩ := add_fd_frame s fd ev s2 hadd
          exact ⟨by unfold tableHandles; rw [hw]; exact htbl, by rw [hsub]; exact id⟩
      | error u => exact ⟨htbl, id⟩
  | modF fd ev =>
      simp only [applyOp]
      cases hmod : s.modify_fd fd ev with
      | ok s2 =>
          obtain ⟨hw, hsub⟩ := modify_fd_frame s fd ev s2 hmod
          exact ⟨by unfold tableHandles; rw [hw]; exact htbl, by rw [hsub]; exact id⟩
      | error u => exact ⟨htbl, id⟩

/-- Trace version: a non-null handle absent from the table, never stored by
a later `await_fd`, and not yet submitted, is never submitted by any
suffix of the execution. -/
theorem runOps_handle_tracking (h : Nat) (h0 : h ≠ 0) :
    ∀ (ops : List Op) (s : IOContext),
      (∀ fd2 ev2, Op.await fd2 h ev2 ∉ ops) →
      h ∉ tableHandles s →
      h ∉ s.submissions →
      h ∉ (runOps s ops).submissions := by
  intro ops
  induction ops with
  | nil => intro s _ _ hsub; exact hsub
  | cons op rest ih =>
      intro s hops htbl hsub
      have hop : ∀ fd2 ev2, op ≠ Op.await fd2 h ev2 := by
        intro fd2 ev2 heq
        exact hops fd2 ev2 (by rw [heq]; exact List.mem_cons_self _ _)
      obtain ⟨htbl2, hsub2⟩ := applyOp_handle_tracking s op h h0 hop htbl
      have hops2 : ∀ fd2 ev2, Op.await fd2 h ev2 ∉ rest := by
        intro fd2 ev2 hmem
        exact hops fd2 ev2 (List.mem_cons_of_mem _ hmem)
      exact ih (applyOp s op) hops2 htbl2 (fun hc => hsub (hsub2 hc))

/-! Further helper lemmas for the claim theorems. -/

theorem mem_eraseFd_key_ne {β : Type} (tbl : List (Int × β)) (fd : Int)
    (e : Int × β) (he : e ∈ eraseFd tbl fd) : e.1 ≠ fd := by
  have hb := List.of_mem_filter he
  simpa using hb

theorem mem_insertFd_key_unique {β : Type} (tbl : List (Int × β)) (fd : Int) (v : β)
    (hnd : (keysOf tbl).Nodup) (e : Int × β) (he : e ∈ insertFd tbl fd v) :
    e = (fd, v) ∨ (e ∈ tbl ∧ e.1 ≠ fd) := by
  induction tbl with
  | nil =>
      simp only [insertFd, List.mem_singleton] at he
      exact Or.inl he
  | cons e0 rest ih =>
      obtain ⟨k, v0⟩ := e0
      simp only [keysOf, List.map_cons, List.nodup_cons] at hnd
      by_cases hk : k = fd
      · have heq : insertFd ((k, v0) :: rest) fd v = (fd, v) :: rest := by
          simp [insertFd, hk]
        rw [heq] at he
        rcases List.mem_cons.mp he with h1 | h2
        · exact Or.inl h1
        · refine Or.inr ⟨List.mem_cons_of_mem _ h2, ?_⟩
          intro hke
          apply hnd.1
          rw [hk]
          rw [← hke]
          exact List.mem_map.mpr ⟨e, h2, rfl⟩
      · simp only [insertFd, if_neg hk] at he
        rcases List.mem_cons.mp he with h1 | h2
        · refine Or.inr ⟨h1 ▸ List.mem_cons_self _ _, ?_⟩
          rw [h1]
          exact hk
        · rcases ih hnd.2 h2 with h3 | h4
          · exact Or.inl h3
          · exact Or.inr ⟨List.mem_cons_of_mem _ h4.1, h4.2⟩

theorem length_filter_key_le_one {β : Type} (tbl : List (Int × β)) (fd : Int)
    (hnd : (keysOf tbl).Nodup) :
    (tbl.filter (fun e => (e.1 = fd : Bool))).length ≤ 1 := by
  induction tbl with
  | nil => simp
  | cons e rest ih =>
      obtain ⟨k, v⟩ := e
      simp only [keysOf, List.map_cons, List.nodup_cons] at hnd
      by_cases hk : k = fd
      · have hrest : rest.filter (fun e => (e.1 = fd : Bool)) = [] := by
          rw [List.filter_eq_nil_iff]
          intro e hemem heb
          apply hnd.1
          rw [hk]
          have hekey : e.1 = fd := by simpa using heb
          rw [← hekey]
          exact List.mem_map.mpr ⟨e, hemem, rfl⟩
        simp [List.filter_cons, hk, hrest]
      · have h1 : (((k, v) :: rest).filter (fun e => (e.1 = fd : Bool))).length =
            (rest.filter (fun e => (e.1 = fd : Bool))).length := by
          simp [List.filter_cons, hk]
        rw [h1]
        exact ih hnd.2

theorem epoll_modify_of_registered (e : Epoll) (fd : Int) (ev m0 : Nat)
    (hreg : lookupFd e.registered fd = some m0) :
    e.modify fd ev = .ok ⟨insertFd e.registered fd ev⟩ := by
  unfold Epoll.modify
  rw [hreg]

theorem epoll_add_ok (e : Epoll) (fd : Int) (ev : Nat) (e2 : Epoll)
    (hok : e.add fd ev = .ok e2) : e2.registered = insertFd e.registered fd ev := by
  unfold Epoll.add at hok
  cases hlk : lookupFd e.registered fd with
  | some m => rw [hlk] at hok; cases hok
  | none => rw [hlk] at hok; cases hok; rfl

theorem epoll_remove_ok (e : Epoll) (fd : Int) (e2 : Epoll)
    (hok : e.remove fd = .ok e2) : e2.registered = eraseFd e.registered fd := by
  unfold Epoll.remove at hok
  cases hlk : lookupFd e.registered fd with
  | none => rw [hlk] at hok; cases hok
  | some m => rw [hlk] at hok; cases hok; rfl

theorem await_suspend_eq_ok (s : IOContext) (fd : Int) (h ev : Nat) (e2 : Epoll)
    (hmod : Epoll.modify s.ev fd ev = .ok e2) :
    s.await_suspend fd h ev =
      ⟨s.executor, insertFd s.waiters fd ⟨h, ev⟩, e2, s.submissions⟩ := by
  unfold IOContext.await_suspend
  simp [hmod]

theorem remove_fd_ok_eq (s : IOContext) (fd : Int) (e2 : Epoll)
    (hok : Epoll.remove s.ev fd = .ok e2) :
    s.remove_fd fd = (⟨s.executor, eraseFd s.waiters fd, e2, s.submissions⟩, false) := by
  unfold IOContext.remove_fd
  simp [hok]

theorem remove_fd_err_eq (s : IOContext) (fd : Int)
    (herr : Epoll.remove s.ev fd = .error ()) :
    s.remove_fd fd = (⟨s.executor, eraseFd s.waiters fd, s.ev, s.submissions⟩, true) := by
  unfold IOContext.remove_fd
  simp [herr]

theorem get_events_frame (s : IOContext) (fd : Int) :
    ((s.get_events fd).2).ev = s.ev ∧
    ((s.get_events fd).2).submissions = s.submissions ∧
    ((s.get_events fd).2).executor = s.executor := by
  cases hlk : lookupFd s.waiters fd with
  | some w =>
      rw [get_events_of_some s fd w hlk]
      exact ⟨rfl, rfl, rfl⟩
  | none =>
      rw [get_events_of_none s fd hlk]
      exact ⟨rfl, rfl, rfl⟩

/-! Claim theorems. -/

/-- C1.  When IOContext::run() dispatches a ready event for an fd: the
dispatch result does not depend on the reported event mask (the returned
mask is never compared against the waiter's requested mask — any
readiness wakes the waiter); when the fd has a WaiterTable entry, that
entry is erased and the resumption closure for the stored handle is
submitted to the WorkerPool (resumption is an enqueue into the pool, never
an inline resume on the event-loop thread); a ready fd with no entry is
skipped, leaving the state unchanged. -/
theorem run_dispatch_spec :
    (∀ (s : IOContext) (fd : Int) (ev1 ev2 : Nat),
        s.dispatchEvent fd ev1 = s.dispatchEvent fd ev2)
    ∧ (∀ (s : IOContext) (fd : Int) (ev : Nat) (w : Waiter),
        lookupFd s.waiters fd = some w →
          lookupFd (s.dispatchEvent fd ev).waiters fd = none ∧
          (s.dispatchEvent fd ev).submissions = s.submissions ++ [w.handle])
    ∧ (∀ (s : IOContext) (fd : Int) (ev : Nat),
        lookupFd s.waiters fd = none → s.dispatchEvent fd ev = s) := by
  refine ⟨fun s fd ev1 ev2 => rfl, ?_, fun s fd ev h => dispatchEvent_of_none s fd ev h⟩
  intro s fd ev w hw
  rw [dispatchEvent_of_some s fd ev w hw]
  exact ⟨lookupFd_eraseFd_self _ _, rfl⟩

/-- Witness for run_dispatch_spec: a state with a waiter on fd 3 is
dispatched (entry erased, handle 42 submitted), and a ready fd with no
entry is skipped. -/
theorem run_dispatch_spec_witness :
    (lookupFd (⟨7, [((3 : Int), ⟨42, 1⟩)], ⟨[((3 : Int), 1)]⟩, []⟩ : IOContext).waiters 3 =
        some ⟨42, 1⟩ ∧
      lookupFd ((⟨7, [((3 : Int), ⟨42, 1⟩)], ⟨[((3 : Int), 1)]⟩, []⟩ :
          IOContext).dispatchEvent 3 5).waiters 3 = none ∧
      ((⟨7, [((3 : Int), ⟨42, 1⟩)], ⟨[((3 : Int), 1)]⟩, []⟩ :
          IOContext).dispatchEvent 3 5).submissions = [] ++ [42]) ∧
    (lookupFd (IOContext.init 7).waiters 9 = none ∧
      (IOContext.init 7).dispatchEvent 9 1 = IOContext.init 7) :=
  ⟨⟨by decide,
    run_dispatch_spec.2.1 ⟨7, [((3 : Int), ⟨42, 1⟩)], ⟨[((3 : Int), 1)]⟩, []⟩ 3 5 ⟨42, 1⟩
      (by decide)⟩,
   by decide,
   run_dispatch_spec.2.2 (IOContext.init 7) 9 1 (by decide)⟩

/-- C5.  If EventPoller.modify raises inside FdAwaiter::await_suspend, no
exception propagates out of the suspension — await_suspend is noexcept
with a catch-all, which the embedding reflects by returning a plain state
rather than an error — and the Waiter just stored for that fd has been
erased from the WaiterTable; nothing is submitted to the pool. -/
theorem await_suspend_modify_failure_spec (s : IOContext) (fd : Int) (h ev : Nat)
    (hfail : Epoll.modify s.ev fd ev = .error ()) :
    lookupFd (s.await_suspend fd h ev).waiters fd = none ∧
    (s.await_suspend fd h ev).submissions = s.submissions := by
  refine ⟨?_, await_suspend_submissions s fd h ev⟩
  rw [await_suspend_waiters_err s fd h ev hfail]
  exact lookupFd_eraseFd_self _ _

/-- Witness for await_suspend_modify_failure_spec: awaiting fd 3 on a
reactor whose poller has no registration for fd 3 makes modify fail; the
stored Waiter is gone and nothing was submitted. -/
theorem await_suspend_modify_failure_spec_witness :
    Epoll.modify (IOContext.init 7).ev 3 1 = .error () ∧
    lookupFd ((IOContext.init 7).await_suspend 3 42 1).waiters 3 = none ∧
    ((IOContext.init 7).await_suspend 3 42 1).submissions =
      (IOContext.init 7).submissions :=
  ⟨rfl,
   (await_suspend_modify_failure_spec (IOContext.init 7) 3 42 1 rfl).1,
   (await_suspend_modify_failure_spec (IOContext.init 7) 3 42 1 rfl).2⟩

/-- C7.  IOContext::co_spawn throws InvalidArgument on a null task handle
and in that case changes nothing and submits nothing; on a non-null handle
it injects the executor pointer into the top-level promise, leaves the
argument's handle null (std::exchange takes ownership), and submits
exactly one resume closure for the taken handle; the caller handle
(promise.awaiting) is untouched and the rest of the reactor state is
unchanged — the submitted closure only resumes, so the top-level result
is discarded. -/
theorem co_spawn_spec :
    (∀ (s : IOContext) (a : AwaitableH), a.handle = 0 →
        s.co_spawn a = (s, a, true))
    ∧ (∀ (s : IOContext) (a : AwaitableH), a.handle ≠ 0 →
        (s.co_spawn a).2.2 = false ∧
        (s.co_spawn a).2.1.handle = 0 ∧
        (s.co_spawn a).2.1.promise.executor = s.executor ∧
        (s.co_spawn a).2.1.promise.awaiting = a.promise.awaiting ∧
        (s.co_spawn a).1.submissions = s.submissions ++ [a.handle] ∧
        (s.co_spawn a).1.waiters = s.waiters ∧
        (s.co_spawn a).1.ev = s.ev) := by
  constructor
  · intro s a h
    simp [IOContext.co_spawn, h]
  · intro s a h
    simp [IOContext.co_spawn, h]

/-- Witness for co_spawn_spec: spawning the null handle raises and changes
nothing; spawning handle 42 injects executor 7, nulls the argument handle
and submits exactly the closure for 42. -/
theorem co_spawn_spec_witness :
    ((IOContext.init 7).co_spawn ⟨0, ⟨0, 0⟩⟩ = (IOContext.init 7, ⟨0, ⟨0, 0⟩⟩, true)) ∧
    (((IOContext.init 7).co_spawn ⟨42, ⟨0, 0⟩⟩).2.2 = false ∧
      ((IOContext.init 7).co_spawn ⟨42, ⟨0, 0⟩⟩).2.1.handle = 0 ∧
      ((IOContext.init 7).co_spawn ⟨42, ⟨0, 0⟩⟩).2.1.promise.executor = 7 ∧
      ((IOContext.init 7).co_spawn ⟨42, ⟨0, 0⟩⟩).1.submissions = [] ++ [42]) :=
  ⟨co_spawn_spec.1 (IOContext.init 7) ⟨0, ⟨0, 0⟩⟩ (by decide),
   (co_spawn_spec.2 (IOContext.init 7) ⟨42, ⟨0, 0⟩⟩ (by decide)).1,
   (co_spawn_spec.2 (IOContext.init 7) ⟨42, ⟨0, 0⟩⟩ (by decide)).2.1,
   (co_spawn_spec.2 (IOContext.init 7) ⟨42, ⟨0, 0⟩⟩ (by decide)).2.2.1,
   (co_spawn_spec.2 (IOContext.init 7) ⟨42, ⟨0, 0⟩⟩ (by decide)).2.2.2.2.1⟩

/-- C9.  The claim that every WaiterTable access holds the single mutex is
refuted by the source: the two accesses inside FdAwaiter::await_suspend
(the store at IOContext.hpp line 53 and the catch-block erase at line 62)
run with no lock_guard on waitter_mtx_, whereas the dispatch accesses in
run() (lines 117 and 127), the erase in remove_fd (line 155) and the
operator[] access in get_events (line 169) are all under the mutex. -/
theorem await_suspend_lock_discipline :
    awaitSuspendAccesses.all (fun a => a.underMutex) = false ∧
    runDispatchAccesses.all (fun a => a.underMutex) = true ∧
    removeFdAccesses.all (fun a => a.underMutex) = true ∧
    getEventsAccesses.all (fun a => a.underMutex) = true := by
  decide

/-- C10.  Every suspension point suspends unconditionally: the awaiter
returned by IOContext::await_fd reports await_ready = false for every fd
and mask; Awaitable's await_ready is false for every task value; and
initial_suspend returns suspend_always for every promise, so a freshly
created task body cannot run before a pool submission resumes it. -/
theorem always_suspends_spec :
    (∀ (s : IOContext) (fd : Int) (ev : Nat),
        (s.await_fd fd ev).await_ready = false)
    ∧ (∀ a : AwaitableH, a.await_ready = false)
    ∧ (∀ p : Promise, p.initial_suspend = SuspendKind.always) :=
  ⟨fun _ _ _ => rfl, fun _ => rfl, fun _ => rfl⟩

/-- C3 counterexample.  The claim says the Socket constructor registers the
fd with interest mask 0; on a fresh reactor and fd 0 the constructor
registers with mask EPOLLIN, which is not 0. -/
theorem socket_ctor_mask_not_zero :
    (socketInit (IOContext.init 7) 0).map (fun s2 => lookupFd s2.ev.registered 0) =
      Except.ok (some EPOLLIN) ∧ EPOLLIN ≠ 0 :=
  ⟨rfl, by decide⟩

/-- C3 amended.  The IOContext-based Socket constructor, for every fd >= 0,
registers that fd with the poller with interest mask EPOLLIN (read
interest — not mask 0 as claimed), and the destructor's close removes the
fd from the poller (when the poller remove does not throw, the
registration is gone). -/
theorem socket_ctor_dtor_spec :
    (∀ (s : IOContext) (fd : Int) (s2 : IOContext), 0 ≤ fd →
        socketInit s fd = .ok s2 →
        lookupFd s2.ev.registered fd = some EPOLLIN)
    ∧ (∀ (s : IOContext) (fd : Int), 0 ≤ fd → (socketClose s fd).2 = false →
        lookupFd ((socketClose s fd).1).ev.registered fd = none) := by
  constructor
  · intro s fd s2 hfd hok
    unfold socketInit at hok
    rw [if_pos hfd] at hok
    unfold IOContext.add_fd at hok
    cases hadd : Epoll.add s.ev fd EPOLLIN with
    | ok e2 =>
        rw [hadd] at hok
        cases hok
        rw [epoll_add_ok s.ev fd EPOLLIN e2 hadd]
        exact lookupFd_insertFd_self _ _ _
    | error u =>
        rw [hadd] at hok
        cases hok
  · intro s fd hfd hnoerr
    unfold socketClose at hnoerr ⊢
    rw [if_pos hfd] at hnoerr ⊢
    cases hrem : Epoll.remove s.ev fd with
    | ok e2 =>
        rw [remove_fd_ok_eq s fd e2 hrem]
        show lookupFd e2.registered fd = none
        rw [epoll_remove_ok s.ev fd e2 hrem]
        exact lookupFd_eraseFd_self _ _
    | error u =>
        cases u
        rw [remove_fd_err_eq s fd hrem] at hnoerr
        simp at hnoerr

/-- Witness for socket_ctor_dtor_spec: constructing a Socket on fd 3 over
a fresh reactor registers (3, EPOLLIN); closing a Socket on fd 3 whose fd
is registered removes the registration. -/
theorem socket_ctor_dtor_spec_witness :
    ((0 : Int) ≤ 3 ∧ socketInit (IOContext.init 7) 3 = .ok ⟨7, [], ⟨[(3, EPOLLIN)]⟩, []⟩ ∧
      lookupFd (⟨7, [], ⟨[((3 : Int), EPOLLIN)]⟩, []⟩ : IOContext).ev.registered 3 =
        some EPOLLIN) ∧
    ((socketClose ⟨7, [], ⟨[((3 : Int), EPOLLIN)]⟩, []⟩ 3).2 = false ∧
      lookupFd ((socketClose ⟨7, [], ⟨[((3 : Int), EPOLLIN)]⟩, []⟩ 3).1).ev.registered 3 =
        none) :=
  ⟨⟨by decide, rfl,
    socket_ctor_dtor_spec.1 (IOContext.init 7) 3 ⟨7, [], ⟨[(3, EPOLLIN)]⟩, []⟩
      (by decide) rfl⟩,
   ⟨rfl,
    socket_ctor_dtor_spec.2 ⟨7, [], ⟨[((3 : Int), EPOLLIN)]⟩, []⟩ 3 (by decide) rfl⟩⟩

/-- C4 counterexample.  get_events is claimed to leave the WaiterTable
unchanged, but calling it on fd 5 of a fresh reactor (no pending Waiter)
inserts a default entry: the state after the call differs from the state
before. -/
theorem get_events_mutates_table :
    ((IOContext.init 7).get_events 5).2 ≠ IOContext.init 7 := by
  decide

/-- C4 amended.  get_events returns the interest mask requested by the
pending Waiter on fd, or 0 when none is pending; when a Waiter is pending
the table is unchanged, but when none is pending operator[] inserts a
default Waiter (null handle, mask 0) entry for fd.  Apart from that
side effect, add_fd, modify_fd and co_spawn leave the table unchanged
(only await_fd, run()'s dispatch and remove_fd mutate it otherwise). -/
theorem get_events_spec :
    (∀ (s : IOContext) (fd : Int) (w : Waiter),
        lookupFd s.waiters fd = some w →
          (s.get_events fd).1 = w.events ∧ (s.get_events fd).2 = s)
    ∧ (∀ (s : IOContext) (fd : Int),
        lookupFd s.waiters fd = none →
          (s.get_events fd).1 = 0 ∧
          (s.get_events fd).2.waiters = insertFd s.waiters fd ⟨0, 0⟩)
    ∧ (∀ (s : IOContext) (fd : Int) (ev : Nat) (s2 : IOContext),
        s.add_fd fd ev = .ok s2 → s2.waiters = s.waiters)
    ∧ (∀ (s : IOContext) (fd : Int) (ev : Nat) (s2 : IOContext),
        s.modify_fd fd ev = .ok s2 → s2.waiters = s.waiters)
    ∧ (∀ (s : IOContext) (a : AwaitableH), (s.co_spawn a).1.waiters = s.waiters) := by
  refine ⟨?_, ?_, ?_, ?_, ?_⟩
  · intro s fd w hw
    rw [get_events_of_some s fd w hw]
    exact ⟨rfl, rfl⟩
  · intro s fd hnone
    rw [get_events_of_none s fd hnone]
    exact ⟨rfl, rfl⟩
  · intro s fd ev s2 hok
    exact (add_fd_frame s fd ev s2 hok).1
  · intro s fd ev s2 hok
    exact (modify_fd_frame s fd ev s2 hok).1
  · intro s a
    unfold IOContext.co_spawn
    by_cases h : a.handle = 0 <;> simp [h]

/-- Witness for get_events_spec: reading the mask of a pending waiter on
fd 3 returns 1 without change; reading fd 9 with no waiter returns 0 and
inserts the default entry; add_fd and co_spawn do not touch the table. -/
theorem get_events_spec_witness :
    ((⟨7, [((3 : Int), ⟨42, 1⟩)], ⟨[]⟩, []⟩ : IOContext).get_events 3).1 = 1 ∧
    ((IOContext.init 7).get_events 9).1 = 0 ∧
    ((IOContext.init 7).get_events 9).2.waiters = insertFd [] 9 ⟨0, 0⟩ ∧
    ((IOContext.init 7).add_fd 4 1 =
        .ok (⟨7, [], ⟨[((4 : Int), 1)]⟩, []⟩ : IOContext) ∧
      (⟨7, [], ⟨[((4 : Int), 1)]⟩, []⟩ : IOContext).waiters = []) ∧
    ((IOContext.init 7).co_spawn ⟨42, ⟨0, 0⟩⟩).1.waiters = [] :=
  ⟨(get_events_spec.1 ⟨7, [((3 : Int), ⟨42, 1⟩)], ⟨[]⟩, []⟩ 3 ⟨42, 1⟩ (by decide)).1,
   (get_events_spec.2.1 (IOContext.init 7) 9 (by decide)).1,
   (get_events_spec.2.1 (IOContext.init 7) 9 (by decide)).2,
   ⟨rfl, get_events_spec.2.2.1 (IOContext.init 7) 4 1 _ rfl⟩,
   get_events_spec.2.2.2.2 (IOContext.init 7) ⟨42, ⟨0, 0⟩⟩⟩

/-- C2.  At every reachable state the WaiterTable holds at most one Waiter
per fd; a second await_fd on an fd while a Waiter is pending overwrites
the prior entry (the table afterwards maps fd to the new Waiter); and the
overwritten waiter is never resumed: its handle is never submitted to the
pool by any later trace of reactor operations, as long as no later
await_fd stores the same handle again. -/
theorem waiter_table_unique_spec :
    (∀ (s : IOContext), Reachable s → ∀ fd : Int,
        (s.waiters.filter (fun e => (e.1 = fd : Bool))).length ≤ 1)
    ∧ (∀ (s : IOContext) (fd : Int) (h ev : Nat) (e2 : Epoll),
        Epoll.modify s.ev fd ev = .ok e2 →
        lookupFd (s.await_suspend fd h ev).waiters fd = some ⟨h, ev⟩)
    ∧ (∀ (s : IOContext) (fd : Int) (h2 ev2 : Nat) (w : Waiter) (ops : List Op),
        (keysOf s.waiters).Nodup →
        lookupFd s.waiters fd = some w →
        w.handle ≠ 0 →
        w.handle ≠ h2 →
        (∀ e ∈ s.waiters, e.2.handle = w.handle → e.1 = fd) →
        (∀ fd3 ev3, Op.await fd3 w.handle ev3 ∉ ops) →
        w.handle ∉ s.submissions →
        w.handle ∉ (runOps (s.await_suspend fd h2 ev2) ops).submissions) := by
  refine ⟨?_, ?_, ?_⟩
  · intro s hs fd
    exact length_filter_key_le_one _ _ (reachable_keysNodup s hs)
  · intro s fd h ev e2 hmod
    have hne : Epoll.modify s.ev fd ev ≠ .error () := by
      rw [hmod]
      intro hc
      cases hc
    rw [await_suspend_waiters_ok s fd h ev hne]
    exact lookupFd_insertFd_self _ _ _
  · intro s fd h2 ev2 w ops hnd hlk h0 hne2 huniq hops hsub
    have htblins : w.handle ∉
        (insertFd s.waiters fd ⟨h2, ev2⟩).map (fun e => e.2.handle) := by
      intro hmem
      simp only [List.mem_map] at hmem
      obtain ⟨e, he, hhe⟩ := hmem
      rcases mem_insertFd_key_unique s.waiters fd ⟨h2, ev2⟩ hnd e he with h1 | h2'
      · apply hne2
        rw [← hhe, h1]
      · exact h2'.2 (huniq e h2'.1 hhe)
    have htbl : w.handle ∉ tableHandles (s.await_suspend fd h2 ev2) := by
      unfold tableHandles
      by_cases hmod : Epoll.modify s.ev fd ev2 = .error ()
      · rw [await_suspend_waiters_err s fd h2 ev2 hmod]
        exact handle_not_mem_eraseFd _ _ _ htblins
      · rw [await_suspend_waiters_ok s fd h2 ev2 hmod]
        exact htblins
    have hsub2 : w.handle ∉ (s.await_suspend fd h2 ev2).submissions := by
      rw [await_suspend_submissions]
      exact hsub
    exact runOps_handle_tracking w.handle h0 ops _ hops htbl hsub2

/-- Witness for waiter_table_unique_spec: the fresh reactor is reachable
with every per-fd entry count at most 1; a second await_fd with handle 43
on fd 3 (while handle 42 is pending and fd 3 is registered) leaves the
table mapping fd 3 to the new Waiter; and after the overwrite, a dispatch
of fd 3 never submits the overwritten handle 42. -/
theorem waiter_table_unique_spec_witness :
    ((IOContext.init 7).waiters.filter (fun e => (e.1 = (3 : Int) : Bool))).length ≤ 1 ∧
    lookupFd ((⟨7, [((3 : Int), ⟨42, 1⟩)], ⟨[((3 : Int), 1)]⟩, []⟩ :
        IOContext).await_suspend 3 43 4).waiters 3 = some ⟨43, 4⟩ ∧
    (42 : Nat) ∉ (runOps ((⟨7, [((3 : Int), ⟨42, 1⟩)], ⟨[((3 : Int), 1)]⟩, []⟩ :
        IOContext).await_suspend 3 43 4) [Op.dispatch 3 1]).submissions :=
  ⟨waiter_table_unique_spec.1 (IOContext.init 7) ⟨7, [], rfl⟩ 3,
   waiter_table_unique_spec.2.1 ⟨7, [((3 : Int), ⟨42, 1⟩)], ⟨[((3 : Int), 1)]⟩, []⟩
     3 43 4 ⟨[((3 : Int), 4)]⟩ rfl,
   waiter_table_unique_spec.2.2 ⟨7, [((3 : Int), ⟨42, 1⟩)], ⟨[((3 : Int), 1)]⟩, []⟩
     3 43 4 ⟨42, 1⟩ [Op.dispatch 3 1] (by decide) (by decide) (by decide) (by decide)
     (by decide) (by intro fd3 ev3 hmem; simp at hmem) (by decide)⟩

/-- C6.  IOContext::remove_fd(fd) erases the WaiterTable entry for fd
before calling EventPoller.remove — the table after remove_fd is the
erased table whether or not the poller call throws — and a Waiter
discarded by remove_fd is never resumed afterwards: a subsequently
dispatched event for that fd finds no entry and is skipped (state
unchanged), and no later trace of reactor operations submits the
discarded handle, as long as no later await_fd stores the same handle. -/
theorem remove_fd_spec :
    (∀ (s : IOContext) (fd : Int),
        ((s.remove_fd fd).1).waiters = eraseFd s.waiters fd ∧
        lookupFd ((s.remove_fd fd).1).waiters fd = none)
    ∧ (∀ (s : IOContext) (fd : Int) (ev : Nat),
        ((s.remove_fd fd).1).dispatchEvent fd ev = (s.remove_fd fd).1)
    ∧ (∀ (s : IOContext) (fd : Int) (w : Waiter) (ops : List Op),
        lookupFd s.waiters fd = some w →
        w.handle ≠ 0 →
        (∀ e ∈ s.waiters, e.2.handle = w.handle → e.1 = fd) →
        (∀ fd3 ev3, Op.await fd3 w.handle ev3 ∉ ops) →
        w.handle ∉ s.submissions →
        w.handle ∉ (runOps (s.remove_fd fd).1 ops).submissions) := by
  have hlknone : ∀ (s : IOContext) (fd : Int),
      lookupFd ((s.remove_fd fd).1).waiters fd = none := by
    intro s fd
    rw [remove_fd_waiters]
    exact lookupFd_eraseFd_self _ _
  refine ⟨?_, ?_, ?_⟩
  · intro s fd
    exact ⟨remove_fd_waiters s fd, hlknone s fd⟩
  · intro s fd ev
    exact dispatchEvent_of_none _ fd ev (hlknone s fd)
  · intro s fd w ops hlk h0 huniq hops hsub
    have htbl : w.handle ∉ tableHandles ((s.remove_fd fd).1) := by
      unfold tableHandles
      rw [remove_fd_waiters]
      intro hmem
      simp only [List.mem_map] at hmem
      obtain ⟨e, he, hhe⟩ := hmem
      exact mem_eraseFd_key_ne s.waiters fd e he
        (huniq e (mem_eraseFd s.waiters fd e he) hhe)
    have hsub2 : w.handle ∉ ((s.remove_fd fd).1).submissions := by
      rw [remove_fd_submissions]
      exact hsub
    exact runOps_handle_tracking w.handle h0 ops _ hops htbl hsub2

/-- Witness for remove_fd_spec: removing fd 3 while handle 42 waits on it
erases the entry (table becomes empty, lookup none), a later dispatch of
fd 3 is a no-op, and the discarded handle 42 is never submitted by the
later dispatch. -/
theorem remove_fd_spec_witness :
    (((⟨7, [((3 : Int), ⟨42, 1⟩)], ⟨[((3 : Int), 1)]⟩, []⟩ :
          IOContext).remove_fd 3).1.waiters =
        eraseFd [((3 : Int), (⟨42, 1⟩ : Waiter))] 3 ∧
      lookupFd (((⟨7, [((3 : Int), ⟨42, 1⟩)], ⟨[((3 : Int), 1)]⟩, []⟩ :
          IOContext).remove_fd 3).1).waiters 3 = none) ∧
    (((⟨7, [((3 : Int), ⟨42, 1⟩)], ⟨[((3 : Int), 1)]⟩, []⟩ :
          IOContext).remove_fd 3).1.dispatchEvent 3 1 =
        ((⟨7, [((3 : Int), ⟨42, 1⟩)], ⟨[((3 : Int), 1)]⟩, []⟩ :
          IOContext).remove_fd 3).1) ∧
    (42 : Nat) ∉ (runOps ((⟨7, [((3 : Int), ⟨42, 1⟩)], ⟨[((3 : Int), 1)]⟩, []⟩ :
        IOContext).remove_fd 3).1 [Op.dispatch 3 1]).submissions :=
  ⟨remove_fd_spec.1 ⟨7, [((3 : Int), ⟨42, 1⟩)], ⟨[((3 : Int), 1)]⟩, []⟩ 3,
   remove_fd_spec.2.1 ⟨7, [((3 : Int), ⟨42, 1⟩)], ⟨[((3 : Int), 1)]⟩, []⟩ 3 1,
   remove_fd_spec.2.2 ⟨7, [((3 : Int), ⟨42, 1⟩)], ⟨[((3 : Int), 1)]⟩, []⟩ 3 ⟨42, 1⟩
     [Op.dispatch 3 1] (by decide) (by decide) (by decide)
     (by intro fd3 ev3 hmem; simp at hmem) (by decide)⟩

/-- Reactor state after one full EAGAIN suspend/dispatch/resume cycle of
async_read on fd with coroutine handle h, when fd is registered with the
poller: get_events may have inserted a default entry, await_fd overwrote
it with the fresh Waiter and refreshed the poller mask, and the
dispatcher erased the entry and submitted the resume closure. -/
def asyncReadCycleState (s : IOContext) (fd : Int) (h : Nat) : IOContext :=
  ⟨s.executor,
   eraseFd (insertFd ((s.get_events fd).2).waiters fd
     ⟨h, (s.get_events fd).1 ||| EPOLLIN⟩) fd,
   ⟨insertFd s.ev.registered fd ((s.get_events fd).1 ||| EPOLLIN)⟩,
   s.submissions ++ [h]⟩

theorem asyncRead_eagain_step (s : IOContext) (fd : Int) (h : Nat)
    (rest : List ReadOutcome) (m0 : Nat)
    (hreg : lookupFd s.ev.registered fd = some m0) :
    asyncRead fd h (.eagain :: rest) s =
      ((asyncRead fd h rest (asyncReadCycleState s fd h)).1,
       (asyncRead fd h rest (asyncReadCycleState s fd h)).2.1,
       (fd, (s.get_events fd).1 ||| EPOLLIN) ::
         (asyncRead fd h rest (asyncReadCycleState s fd h)).2.2.1,
       (asyncRead fd h rest (asyncReadCycleState s fd h)).2.2.2 + 1) := by
  have hframe := get_events_frame s fd
  have hmod : Epoll.modify ((s.get_events fd).2).ev fd
      ((s.get_events fd).1 ||| EPOLLIN) =
      .ok ⟨insertFd s.ev.registered fd ((s.get_events fd).1 ||| EPOLLIN)⟩ := by
    rw [hframe.1]
    exact epoll_modify_of_registered s.ev fd _ m0 hreg
  have hs2 : ((s.get_events fd).2).await_suspend fd h
      ((s.get_events fd).1 ||| EPOLLIN) =
      ⟨s.executor,
       insertFd ((s.get_events fd).2).waiters fd
         ⟨h, (s.get_events fd).1 ||| EPOLLIN⟩,
       ⟨insertFd s.ev.registered fd ((s.get_events fd).1 ||| EPOLLIN)⟩,
       s.submissions⟩ := by
    rw [await_suspend_eq_ok _ fd h _ _ hmod, hframe.2.2, hframe.2.1]
  have hlk : lookupFd (insertFd ((s.get_events fd).2).waiters fd
      ⟨h, (s.get_events fd).1 ||| EPOLLIN⟩) fd =
      some ⟨h, (s.get_events fd).1 ||| EPOLLIN⟩ :=
    lookupFd_insertFd_self _ _ _
  rcases hres : asyncRead fd h rest (asyncReadCycleState s fd h) with ⟨r, s4, sus, res⟩
  simp only [asyncRead, hs2, hlk]
  have hdisp : IOContext.dispatchEvent
      ⟨s.executor,
       insertFd ((s.get_events fd).2).waiters fd
         ⟨h, (s.get_events fd).1 ||| EPOLLIN⟩,
       ⟨insertFd s.ev.registered fd ((s.get_events fd).1 ||| EPOLLIN)⟩,
       s.submissions⟩ fd EPOLLIN = asyncReadCycleState s fd h := by
    rw [dispatchEvent_of_some _ fd EPOLLIN _ hlk]
    rfl
  rw [hdisp, hres]

/-- C8.  For Socket::async_read on a fixed fd registered with the poller,
a readFd trace of two consecutive EAGAIN returns followed by a successful
read of n bytes yields the same final returned byte count as an immediate
successful read of n bytes; each EAGAIN causes exactly one suspension via
await_fd — the first with mask get_events(fd) OR EPOLLIN (the fd's prior
interest), the second with mask 0 OR EPOLLIN = EPOLLIN, since the first
dispatch erased the fd's entry — and exactly one resumption before the
loop retries (two suspensions and two resumptions in total). -/
theorem async_read_eagain_idempotent (s : IOContext) (fd : Int) (h n : Nat)
    (m0 : Nat) (hreg : lookupFd s.ev.registered fd = some m0) :
    (asyncRead fd h [.eagain, .eagain, .ok n] s).1 = some (.ok n) ∧
    (asyncRead fd h [.ok n] s).1 = some (.ok n) ∧
    (asyncRead fd h [.eagain, .eagain, .ok n] s).2.2.1 =
      [(fd, (s.get_events fd).1 ||| EPOLLIN), (fd, EPOLLIN)] ∧
    (asyncRead fd h [.eagain, .eagain, .ok n] s).2.2.2 = 2 := by
  set s1 := asyncReadCycleState s fd h with hs1
  have hreg1 : lookupFd s1.ev.registered fd =
      some ((s.get_events fd).1 ||| EPOLLIN) := by
    rw [hs1]
    exact lookupFd_insertFd_self _ _ _
  have hlk1 : lookupFd s1.waiters fd = none := by
    rw [hs1]
    exact lookupFd_eraseFd_self _ _
  have hge1 : (s1.get_events fd).1 = 0 := by
    rw [get_events_of_none s1 fd hlk1]
  have hstep1 := asyncRead_eagain_step s fd h [.eagain, .ok n] m0 hreg
  have hstep2 := asyncRead_eagain_step s1 fd h [.ok n] _ hreg1
  have hfinal : asyncRead fd h [ReadOutcome.ok n] (asyncReadCycleState s1 fd h) =
      (some (.ok n), asyncReadCycleState s1 fd h, [], 0) := by
    simp only [asyncRead]
  rw [hstep2, hfinal] at hstep1
  have hm2 : (s1.get_events fd).1 ||| EPOLLIN = EPOLLIN := by
    rw [hge1]
    decide
  rw [hm2] at hstep1
  refine ⟨?_, ?_, ?_, ?_⟩
  · rw [hstep1]
  · simp only [asyncRead]
  · rw [hstep1]
  · rw [hstep1]

/-- Witness for async_read_eagain_idempotent: on a reactor with fd 3
registered (mask 0) and no pending waiter, the double-EAGAIN trace and
the immediate-success trace both return 5 bytes; the two suspensions use
masks EPOLLIN and EPOLLIN, and there are two resumptions. -/
theorem async_read_eagain_idempotent_witness :
    (asyncRead 3 42 [.eagain, .eagain, .ok 5] ⟨7, [], ⟨[((3 : Int), 0)]⟩, []⟩).1 =
      some (.ok 5) ∧
    (asyncRead 3 42 [.ok 5] ⟨7, [], ⟨[((3 : Int), 0)]⟩, []⟩).1 = some (.ok 5) ∧
    (asyncRead 3 42 [.eagain, .eagain, .ok 5]
        ⟨7, [], ⟨[((3 : Int), 0)]⟩, []⟩).2.2.1 =
      [(3, (((⟨7, [], ⟨[((3 : Int), 0)]⟩, []⟩ : IOContext).get_events 3).1 ||| EPOLLIN)),
       (3, EPOLLIN)] ∧
    (asyncRead 3 42 [.eagain, .eagain, .ok 5]
        ⟨7, [], ⟨[((3 : Int), 0)]⟩, []⟩).2.2.2 = 2 :=
  ⟨(async_read_eagain_idempotent ⟨7, [], ⟨[((3 : Int), 0)]⟩, []⟩ 3 42 5 0 rfl).1,
   (async_read_eagain_idempotent ⟨7, [], ⟨[((3 : Int), 0)]⟩, []⟩ 3 42 5 0 rfl).2.1,
   (async_read_eagain_idempotent ⟨7, [], ⟨[((3 : Int), 0)]⟩, []⟩ 3 42 5 0 rfl).2.2.1,
   (async_read_eagain_idempotent ⟨7, [], ⟨[((3 : Int), 0)]⟩, []⟩ 3 42 5 0 rfl).2.2.2⟩

end HighSpeed

